import Mathlib

/-!
Verification of the DNS SPF lookup tool (`src/server.js`) against its
natural-language specification.

The development shallowly embeds the four core functions of the server:

* `parseSpfRecord`  — the SPF token extractor built on the JavaScript
  regular expressions `/ip4:([^\s]+)/g` and `/include:([^\s]+)/g`;
* `lookupSpfRecords` — the recursive, depth- and cycle-bounded SPF chain
  resolver (the DNS transport is an injected oracle, as the spec demands:
  a total function from a domain to either an error message or the list
  of TXT record strings);
* `collectAllIpRanges` — the depth-first range flattener;
* `checkIpInRanges` — the best-effort IP/CIDR matcher (the external
  `ip-range-check` library is likewise an injected oracle that either
  answers the containment question or raises, i.e. returns an error).

Machine integers do not appear: the JavaScript numbers involved
(`depth`, `maxDepth`, array lengths) are all small non-negative counters
and are modelled as `Nat`.
-/

/-- Whitespace test of the JavaScript regular-expression class `\s`:
space, tab, line feed, vertical tab, form feed, carriage return, and the
Unicode space characters (NBSP, Ogham space mark, the U+2000 block, line
and paragraph separators, narrow NBSP, medium mathematical space,
ideographic space, and the BOM). -/
def isSpaceChar (c : Char) : Bool :=
  let n := c.toNat
  n = 32 || n = 9 || n = 10 || n = 11 || n = 12 || n = 13 ||
  n = 0xa0 || n = 0x1680 || (0x2000 ≤ n && n ≤ 0x200a) ||
  n = 0x2028 || n = 0x2029 || n = 0x202f || n = 0x205f || n = 0x3000 || n = 0xfeff

/-- Substring containment, the model of JavaScript `String.includes`:
`containsSubstr needle hay` is true when `needle` occurs contiguously in
`hay`. -/
def containsSubstr (needle : List Char) : List Char → Bool
  | [] => needle.isEmpty
  | c :: cs => needle.isPrefixOf (c :: cs) || containsSubstr needle cs

/-- One global scan of the JavaScript regular expression
`/pfx([^\s]+)/g` over a string, returning the captured groups in order.

The scanner walks the string left to right.  At a position where the
literal `pfx` matches and is followed by at least one non-whitespace
character, the regex engine produces a match whose capture is the
maximal run of non-whitespace characters after the literal, and resumes
scanning after the end of the whole match (`lastIndex` semantics); the
`skip` counter carries "resume after this many further characters"
across the structural recursion.  At any other position the engine
advances by one character. -/
def scanAux (pfx : List Char) : List Char → Nat → List (List Char)
  | [], _ => []
  | _ :: cs, skip + 1 => scanAux pfx cs skip
  | c :: cs, 0 =>
      let run := ((c :: cs).drop pfx.length).takeWhile fun ch => !(isSpaceChar ch)
      if pfx.isPrefixOf (c :: cs) && !(run.isEmpty) then
        run :: scanAux pfx cs (pfx.length + run.length - 1)
      else
        scanAux pfx cs 0

/-- The characters of the literal `ip4:` of the first regex. -/
def ip4Pfx : List Char := "ip4:".toList

/-- The characters of the literal `include:` of the second regex. -/
def includePfx : List Char := "include:".toList

/-- Result record of `parseSpfRecord`: the `{ ipv4, includes }` object. -/
structure SpfParts where
  ipv4 : List String
  includes : List String
deriving DecidableEq, Repr

/-- Model of `parseSpfRecord` (src/server.js lines 21-29): run the two
global regexes over the raw record string and strip the literal prefix
from every match.  A regex match always starts with the literal, so
JavaScript's `replace('ip4:', '')` (which replaces the first occurrence)
is exactly the prefix strip, i.e. the captured group that `scanAux`
returns. -/
def parseSpfRecord (recordStr : String) : SpfParts :=
  { ipv4 := (scanAux ip4Pfx recordStr.toList 0).map fun l => String.mk l
    includes := (scanAux includePfx recordStr.toList 0).map fun l => String.mk l }

/-- Model of `recordStr.includes('v=spf1')`. -/
def hasSpfTag (recordStr : String) : Bool :=
  containsSubstr "v=spf1".toList recordStr.toList

/-- One node of the SPF resolution tree, the object literal built by
`lookupSpfRecords`. -/
structure SpfNode where
  domain : String
  ipRanges : List String
  children : List SpfNode
  error : Option String
  spfRecord : Option String

/-- The injected DNS-TXT capability: a total function from a domain to
either an error message (`err.message`) or the list of TXT record
strings (`record.toString()` for each record). -/
abbrev DnsOracle := String → Except String (List String)

/-- Model of `lookupSpfRecords` (src/server.js lines 32-87).

The `visited` set is modelled as the list of its elements.  Every
JavaScript call site passes a fresh `Set` (the route passes the default
`new Set()`, and the recursive call site passes `new Set(visited)` built
after `visited.add(domain)`), so each recursive call receives the value
`domain :: visited` — the path-local set plus the current domain — and
mutation never crosses call boundaries; see `lookupVisitedAfter` for the
one mutation a call performs on the set object it receives.

Termination is by the measure `maxDepth + 1 - depth`: the code only
recurses after the `depth > maxDepth` guard has failed, with `depth`
increased by one. -/
def lookupSpfRecords (dns : DnsOracle) (maxDepth : Nat) (depth : Nat) (domain : String)
    (visited : List String) : SpfNode :=
  if h : depth > maxDepth ∨ domain ∈ visited then
    { domain := domain
      error := some (if depth > maxDepth then "Max depth reached" else "Circular reference detected")
      ipRanges := []
      children := []
      spfRecord := none }
  else
    match dns domain with
    | .error msg =>
        { domain := domain, ipRanges := [], children := [], error := some msg, spfRecord := none }
    | .ok records =>
        match records.find? (fun recordStr => hasSpfTag recordStr) with
        | none =>
            { domain := domain, ipRanges := [], children := [], error := none, spfRecord := none }
        | some recordStr =>
            let parts := parseSpfRecord recordStr
            { domain := domain
              ipRanges := parts.ipv4
              children := parts.includes.map fun inc =>
                lookupSpfRecords dns maxDepth (depth + 1) inc (domain :: visited)
              error := none
              spfRecord := some recordStr }
termination_by maxDepth + 1 - depth
decreasing_by
  obtain ⟨h1, h2⟩ := not_or.mp h
  omega

/-- Contents of the `visited` set object passed to a call of
`lookupSpfRecords`, after the call returns.  Line 43 (`visited.add(domain)`)
is the only mutation the call applies to the object it receives: the
recursive calls receive fresh copies (`new Set(visited)`), so none of the
descendants' additions reach it. -/
def lookupVisitedAfter (maxDepth : Nat) (depth : Nat) (domain : String)
    (visited : List String) : List String :=
  if depth > maxDepth ∨ domain ∈ visited then visited else domain :: visited

/-- Ancestor paths inside a resolution tree: `PathTo t p u` states that
node `u` is reached from the root `t` by descending through children,
and `p` is the list of domains of the proper ancestors passed on the
way (root first, parent of `u` last; `p = []` means `u` is `t` itself). -/
inductive PathTo : SpfNode → List String → SpfNode → Prop where
  | here (t : SpfNode) : PathTo t [] t
  | via {t c u : SpfNode} {p : List String} (hc : c ∈ t.children) (hp : PathTo c p u) :
      PathTo t (t.domain :: p) u

/-- Height bound on a tree: `HeightLe n t` states that every chain of
nested children of `t` passes through at most `n` nodes.  Any `SpfNode`
is an inductive value, hence finite; this predicate makes the depth
bound explicit. -/
inductive HeightLe : Nat → SpfNode → Prop where
  | node {n : Nat} {t : SpfNode} (hc : ∀ c ∈ t.children, HeightLe n c) : HeightLe (n + 1) t

theorem HeightLe.mono {m n : Nat} {t : SpfNode} (h : HeightLe m t) (hmn : m ≤ n) :
    HeightLe n t := by
  induction h generalizing n with
  | node hc ih =>
    obtain ⟨n, rfl⟩ : ∃ k, n = k + 1 := ⟨n - 1, by omega⟩
    exact .node fun c hcmem => ih c hcmem (by omega)

theorem lookup_guard (dns : DnsOracle) (maxDepth depth : Nat) (domain : String)
    (visited : List String) (h : depth > maxDepth ∨ domain ∈ visited) :
    lookupSpfRecords dns maxDepth depth domain visited =
      { domain := domain
        ipRanges := []
        children := []
        error := some (if depth > maxDepth then "Max depth reached"
                       else "Circular reference detected")
        spfRecord := none } := by
  unfold lookupSpfRecords
  rw [dif_pos h]

theorem lookup_dnsError (dns : DnsOracle) (maxDepth depth : Nat) (domain : String)
    (visited : List String) (h : ¬(depth > maxDepth ∨ domain ∈ visited))
    {msg : String} (herr : dns domain = .error msg) :
    lookupSpfRecords dns maxDepth depth domain visited =
      { domain := domain, ipRanges := [], children := [], error := some msg,
        spfRecord := none } := by
  unfold lookupSpfRecords
  rw [dif_neg h, herr]

theorem lookup_noSpf (dns : DnsOracle) (maxDepth depth : Nat) (domain : String)
    (visited : List String) (h : ¬(depth > maxDepth ∨ domain ∈ visited))
    {records : List String} (hok : dns domain = .ok records)
    (hnone : records.find? (fun recordStr => hasSpfTag recordStr) = none) :
    lookupSpfRecords dns maxDepth depth domain visited =
      { domain := domain, ipRanges := [], children := [], error := none,
        spfRecord := none } := by
  unfold lookupSpfRecords
  rw [dif_neg h]
  split
  next msg heq => rw [hok] at heq; exact absurd heq (by simp)
  next records2 heq =>
    rw [hok] at heq
    injection heq with heq2
    subst heq2
    split
    next => rfl
    next r heq3 => rw [hnone] at heq3; exact absurd heq3 (by simp)

theorem lookup_spf (dns : DnsOracle) (maxDepth depth : Nat) (domain : String)
    (visited : List String) (h : ¬(depth > maxDepth ∨ domain ∈ visited))
    {records : List String} (hok : dns domain = .ok records)
    {recordStr : String}
    (hfind : records.find? (fun recordStr => hasSpfTag recordStr) = some recordStr) :
    lookupSpfRecords dns maxDepth depth domain visited =
      { domain := domain
        ipRanges := (parseSpfRecord recordStr).ipv4
        children := (parseSpfRecord recordStr).includes.map fun inc =>
          lookupSpfRecords dns maxDepth (depth + 1) inc (domain :: visited)
        error := none
        spfRecord := some recordStr } := by
  conv_lhs => unfold lookupSpfRecords
  rw [dif_neg h]
  split
  next msg heq => rw [hok] at heq; exact absurd heq (by simp)
  next records2 heq =>
    rw [hok] at heq
    injection heq with heq2
    subst heq2
    split
    next heq3 => rw [hfind] at heq3; exact absurd heq3 (by simp)
    next r heq3 =>
      rw [hfind] at heq3
      injection heq3 with heq4
      subst heq4
      rfl

theorem lookup_domain (dns : DnsOracle) (maxDepth depth : Nat) (domain : String)
    (visited : List String) :
    (lookupSpfRecords dns maxDepth depth domain visited).domain = domain := by
  by_cases hg : depth > maxDepth ∨ domain ∈ visited
  · rw [lookup_guard dns maxDepth depth domain visited hg]
  · rcases hdns : dns domain with msg | records
    · rw [lookup_dnsError dns maxDepth depth domain visited hg hdns]
    · rcases hfind : records.find? (fun recordStr => hasSpfTag recordStr) with _ | r
      · rw [lookup_noSpf dns maxDepth depth domain visited hg hdns hfind]
      · rw [lookup_spf dns maxDepth depth domain visited hg hdns hfind]

theorem lookup_error_shape (dns : DnsOracle) (maxDepth depth : Nat) (domain : String)
    (visited : List String)
    (herr : (lookupSpfRecords dns maxDepth depth domain visited).error ≠ none) :
    (lookupSpfRecords dns maxDepth depth domain visited).ipRanges = [] ∧
    (lookupSpfRecords dns maxDepth depth domain visited).children = [] ∧
    (lookupSpfRecords dns maxDepth depth domain visited).spfRecord = none := by
  by_cases hg : depth > maxDepth ∨ domain ∈ visited
  · rw [lookup_guard dns maxDepth depth domain visited hg]
    exact ⟨rfl, rfl, rfl⟩
  · rcases hdns : dns domain with msg | records
    · rw [lookup_dnsError dns maxDepth depth domain visited hg hdns]
      exact ⟨rfl, rfl, rfl⟩
    · rcases hfind : records.find? (fun recordStr => hasSpfTag recordStr) with _ | r
      · rw [lookup_noSpf dns maxDepth depth domain visited hg hdns hfind]
        exact ⟨rfl, rfl, rfl⟩
      · rw [lookup_spf dns maxDepth depth domain visited hg hdns hfind] at herr
        exact absurd rfl herr

theorem lookup_guard_of_error (dns : DnsOracle) (maxDepth depth : Nat) (domain : String)
    (visited : List String)
    (hvis : domain ∈ visited) :
    (lookupSpfRecords dns maxDepth depth domain visited).children = [] ∧
    (lookupSpfRecords dns maxDepth depth domain visited).error ≠ none := by
  rw [lookup_guard dns maxDepth depth domain visited (Or.inr hvis)]
  exact ⟨rfl, by simp⟩

theorem lookup_children_mem (dns : DnsOracle) (maxDepth depth : Nat) (domain : String)
    (visited : List String) {c : SpfNode}
    (hc : c ∈ (lookupSpfRecords dns maxDepth depth domain visited).children) :
    ¬(depth > maxDepth ∨ domain ∈ visited) ∧
    ∃ records recordStr inc, dns domain = .ok records ∧
      records.find? (fun recordStr => hasSpfTag recordStr) = some recordStr ∧
      inc ∈ (parseSpfRecord recordStr).includes ∧
      c = lookupSpfRecords dns maxDepth (depth + 1) inc (domain :: visited) := by
  by_cases hg : depth > maxDepth ∨ domain ∈ visited
  · rw [lookup_guard dns maxDepth depth domain visited hg] at hc
    exact absurd hc (List.not_mem_nil c)
  · rcases hdns : dns domain with msg | records
    · rw [lookup_dnsError dns maxDepth depth domain visited hg hdns] at hc
      exact absurd hc (List.not_mem_nil c)
    · rcases hfind : records.find? (fun recordStr => hasSpfTag recordStr) with _ | r
      · rw [lookup_noSpf dns maxDepth depth domain visited hg hdns hfind] at hc
        exact absurd hc (List.not_mem_nil c)
      · rw [lookup_spf dns maxDepth depth domain visited hg hdns hfind] at hc
        obtain ⟨inc, hinc, hceq⟩ := List.mem_map.mp hc
        exact ⟨hg, records, r, inc, by simp [hdns], hfind, hinc, hceq.symm⟩

theorem PathTo.nil_inv {t u : SpfNode} (h : PathTo t [] u) : u = t := by
  cases h
  rfl

theorem PathTo.cons_inv {t u : SpfNode} {d : String} {p : List String}
    (h : PathTo t (d :: p) u) : d = t.domain ∧ ∃ c ∈ t.children, PathTo c p u := by
  cases h with
  | via hc hp => exact ⟨rfl, _, hc, hp⟩

/-- Invariant of every resolution tree: along any root-to-node path the
proper-ancestor domains are pairwise distinct and disjoint from the
initial `visited` set, and any node whose own domain re-occurs among its
ancestors (or in the initial `visited` set) is a terminal bound node:
no children, and an error is set. -/
theorem lookup_path_invariant (dns : DnsOracle) (maxDepth : Nat) :
    ∀ (p : List String) (depth : Nat) (domain : String) (visited : List String) (u : SpfNode),
      PathTo (lookupSpfRecords dns maxDepth depth domain visited) p u →
      p.Nodup ∧ (∀ x ∈ p, x ∉ visited) ∧
      ((u.domain ∈ p ∨ u.domain ∈ visited) → u.children = [] ∧ u.error ≠ none) := by
  intro p
  induction p with
  | nil =>
    intro depth domain visited u hpath
    obtain rfl := hpath.nil_inv
    refine ⟨List.nodup_nil, by simp, ?_⟩
    rintro (habs | hvis)
    · exact absurd habs (List.not_mem_nil _)
    · rw [lookup_domain] at hvis
      exact lookup_guard_of_error dns maxDepth depth domain visited hvis
  | cons d p' ih =>
    intro depth domain visited u hpath
    obtain ⟨hd, c, hc, hp⟩ := hpath.cons_inv
    obtain ⟨hg, records, r, inc, hdns, hfind, hinc, hceq⟩ :=
      lookup_children_mem dns maxDepth depth domain visited hc
    subst hceq
    obtain ⟨hnodup', hfresh', hterm'⟩ := ih (depth + 1) inc (domain :: visited) u hp
    have hdomeq : d = domain := by
      rw [hd, lookup_domain]
    subst hdomeq
    have hdomfresh : d ∉ visited := fun hmem => hg (Or.inr hmem)
    refine ⟨?_, ?_, ?_⟩
    · refine List.nodup_cons.mpr ⟨?_, hnodup'⟩
      intro habs
      exact hfresh' d habs (List.mem_cons_self d visited)
    · intro x hx
      rcases List.mem_cons.mp hx with rfl | hx'
      · exact hdomfresh
      · intro hxv
        exact hfresh' x hx' (List.mem_cons_of_mem d hxv)
    · rintro (hmem | hvis)
      · rcases List.mem_cons.mp hmem with hud | hup'
        · exact hterm' (Or.inr (hud ▸ List.mem_cons_self d visited))
        · exact hterm' (Or.inl hup')
      · exact hterm' (Or.inr (List.mem_cons_of_mem d hvis))

/-- Height bound: a resolution started at `depth` produces a tree in
which at most `maxDepth + 2 - depth` nodes lie on any root-to-leaf
chain (the worst case is `depth ≤ maxDepth` all the way down plus the
terminal `Max depth reached` node). -/
theorem lookup_height_aux (dns : DnsOracle) (maxDepth : Nat) :
    ∀ (n depth : Nat), maxDepth + 1 - depth ≤ n → ∀ (domain : String) (visited : List String),
      HeightLe (n + 1) (lookupSpfRecords dns maxDepth depth domain visited) := by
  intro n
  induction n with
  | zero =>
    intro depth hn domain visited
    have hg : depth > maxDepth ∨ domain ∈ visited := Or.inl (by omega)
    refine .node fun c hcmem => ?_
    rw [lookup_guard dns maxDepth depth domain visited hg] at hcmem
    exact absurd hcmem (List.not_mem_nil c)
  | succ n ih =>
    intro depth hn domain visited
    refine .node fun c hcmem => ?_
    obtain ⟨hg, records, r, inc, hdns, hfind, hinc, hceq⟩ :=
      lookup_children_mem dns maxDepth depth domain visited hcmem
    have hdle : ¬depth > maxDepth := fun habs => hg (Or.inl habs)
    subst hceq
    exact ih (depth + 1) (by omega) inc (domain :: visited)

/-- Every node of a resolution tree is itself the result of a
resolution call (with a deeper `depth` and a larger `visited` set). -/
theorem lookup_path_node (dns : DnsOracle) (maxDepth : Nat) :
    ∀ (p : List String) (depth : Nat) (domain : String) (visited : List String) (u : SpfNode),
      PathTo (lookupSpfRecords dns maxDepth depth domain visited) p u →
      ∃ depth2 domain2 visited2, u = lookupSpfRecords dns maxDepth depth2 domain2 visited2 := by
  intro p
  induction p with
  | nil =>
    intro depth domain visited u hpath
    exact ⟨depth, domain, visited, hpath.nil_inv⟩
  | cons d p' ih =>
    intro depth domain visited u hpath
    obtain ⟨hd, c, hc, hp⟩ := hpath.cons_inv
    obtain ⟨hg, records, r, inc, hdns, hfind, hinc, hceq⟩ :=
      lookup_children_mem dns maxDepth depth domain visited hc
    subst hceq
    exact ih (depth + 1) inc (domain :: visited) u hp

/-- Test oracle for the cycle scenario: `a.example` includes `b.example`
and `b.example` includes `a.example`. -/
def cycleDns : DnsOracle := fun d =>
  if d = "a.example" then .ok ["v=spf1 include:b.example -all"]
  else if d = "b.example" then .ok ["v=spf1 include:a.example -all"]
  else .error "queryTxt ENOTFOUND"

theorem cycle_eval_leaf :
    lookupSpfRecords cycleDns 10 2 "a.example" ["b.example", "a.example"] =
      { domain := "a.example", ipRanges := [], children := [],
        error := some "Circular reference detected", spfRecord := none } := by
  rw [lookup_guard cycleDns 10 2 "a.example" ["b.example", "a.example"] (Or.inr (by decide))]
  simp

theorem cycle_eval_b :
    lookupSpfRecords cycleDns 10 1 "b.example" ["a.example"] =
      { domain := "b.example", ipRanges := []
        children := [{ domain := "a.example", ipRanges := [], children := [],
                       error := some "Circular reference detected", spfRecord := none }]
        error := none, spfRecord := some "v=spf1 include:a.example -all" } := by
  have hok : cycleDns "b.example" = .ok ["v=spf1 include:a.example -all"] := rfl
  have hfind : (["v=spf1 include:a.example -all"] : List String).find?
      (fun recordStr => hasSpfTag recordStr) = some "v=spf1 include:a.example -all" := by decide
  have hparse : parseSpfRecord "v=spf1 include:a.example -all" =
      { ipv4 := [], includes := ["a.example"] } := by decide
  rw [lookup_spf cycleDns 10 1 "b.example" ["a.example"] (by decide) hok hfind, hparse]
  simp [cycle_eval_leaf]

theorem cycle_eval_root :
    lookupSpfRecords cycleDns 10 0 "a.example" [] =
      { domain := "a.example", ipRanges := []
        children := [{ domain := "b.example", ipRanges := []
                       children := [{ domain := "a.example", ipRanges := [], children := [],
                                      error := some "Circular reference detected",
                                      spfRecord := none }]
                       error := none, spfRecord := some "v=spf1 include:a.example -all" }]
        error := none, spfRecord := some "v=spf1 include:b.example -all" } := by
  have hok : cycleDns "a.example" = .ok ["v=spf1 include:b.example -all"] := rfl
  have hfind : (["v=spf1 include:b.example -all"] : List String).find?
      (fun recordStr => hasSpfTag recordStr) = some "v=spf1 include:b.example -all" := by decide
  have hparse : parseSpfRecord "v=spf1 include:b.example -all" =
      { ipv4 := [], includes := ["b.example"] } := by decide
  rw [lookup_spf cycleDns 10 0 "a.example" [] (by decide) hok hfind, hparse]
  simp [cycle_eval_b]

/-- Test oracle for the sibling-reuse scenario: the root includes two
branches `a.example` and `b.example`, and both branches include the same
domain `shared.example`. -/
def siblingDns : DnsOracle := fun d =>
  if d = "root.example" then .ok ["v=spf1 include:a.example include:b.example -all"]
  else if d = "a.example" then .ok ["v=spf1 include:shared.example -all"]
  else if d = "b.example" then .ok ["v=spf1 include:shared.example -all"]
  else if d = "shared.example" then .ok ["v=spf1 ip4:198.51.100.0/24 -all"]
  else .error "queryTxt ENOTFOUND"

/-- The fully resolved node of `shared.example`. -/
def sharedNode : SpfNode :=
  { domain := "shared.example", ipRanges := ["198.51.100.0/24"], children := [],
    error := none, spfRecord := some "v=spf1 ip4:198.51.100.0/24 -all" }

theorem sibling_eval_shared_a :
    lookupSpfRecords siblingDns 10 2 "shared.example" ["a.example", "root.example"] =
      sharedNode := by
  have hok : siblingDns "shared.example" = .ok ["v=spf1 ip4:198.51.100.0/24 -all"] := rfl
  have hfind : (["v=spf1 ip4:198.51.100.0/24 -all"] : List String).find?
      (fun recordStr => hasSpfTag recordStr) = some "v=spf1 ip4:198.51.100.0/24 -all" := by decide
  have hparse : parseSpfRecord "v=spf1 ip4:198.51.100.0/24 -all" =
      { ipv4 := ["198.51.100.0/24"], includes := [] } := by decide
  rw [lookup_spf siblingDns 10 2 "shared.example" ["a.example", "root.example"]
    (by decide) hok hfind, hparse]
  simp [sharedNode]

theorem sibling_eval_shared_b :
    lookupSpfRecords siblingDns 10 2 "shared.example" ["b.example", "root.example"] =
      sharedNode := by
  have hok : siblingDns "shared.example" = .ok ["v=spf1 ip4:198.51.100.0/24 -all"] := rfl
  have hfind : (["v=spf1 ip4:198.51.100.0/24 -all"] : List String).find?
      (fun recordStr => hasSpfTag recordStr) = some "v=spf1 ip4:198.51.100.0/24 -all" := by decide
  have hparse : parseSpfRecord "v=spf1 ip4:198.51.100.0/24 -all" =
      { ipv4 := ["198.51.100.0/24"], includes := [] } := by decide
  rw [lookup_spf siblingDns 10 2 "shared.example" ["b.example", "root.example"]
    (by decide) hok hfind, hparse]
  simp [sharedNode]

theorem sibling_eval_a :
    lookupSpfRecords siblingDns 10 1 "a.example" ["root.example"] =
      { domain := "a.example", ipRanges := [], children := [sharedNode],
        error := none, spfRecord := some "v=spf1 include:shared.example -all" } := by
  have hok : siblingDns "a.example" = .ok ["v=spf1 include:shared.example -all"] := rfl
  have hfind : (["v=spf1 include:shared.example -all"] : List String).find?
      (fun recordStr => hasSpfTag recordStr) = some "v=spf1 include:shared.example -all" := by
    decide
  have hparse : parseSpfRecord "v=spf1 include:shared.example -all" =
      { ipv4 := [], includes := ["shared.example"] } := by decide
  rw [lookup_spf siblingDns 10 1 "a.example" ["root.example"] (by decide) hok hfind, hparse]
  simp [sibling_eval_shared_a]

theorem sibling_eval_b :
    lookupSpfRecords siblingDns 10 1 "b.example" ["root.example"] =
      { domain := "b.example", ipRanges := [], children := [sharedNode],
        error := none, spfRecord := some "v=spf1 include:shared.example -all" } := by
  have hok : siblingDns "b.example" = .ok ["v=spf1 include:shared.example -all"] := rfl
  have hfind : (["v=spf1 include:shared.example -all"] : List String).find?
      (fun recordStr => hasSpfTag recordStr) = some "v=spf1 include:shared.example -all" := by
    decide
  have hparse : parseSpfRecord "v=spf1 include:shared.example -all" =
      { ipv4 := [], includes := ["shared.example"] } := by decide
  rw [lookup_spf siblingDns 10 1 "b.example" ["root.example"] (by decide) hok hfind, hparse]
  simp [sibling_eval_shared_b]

theorem sibling_eval_root :
    lookupSpfRecords siblingDns 10 0 "root.example" [] =
      { domain := "root.example", ipRanges := []
        children :=
          [{ domain := "a.example", ipRanges := [], children := [sharedNode],
             error := none, spfRecord := some "v=spf1 include:shared.example -all" },
           { domain := "b.example", ipRanges := [], children := [sharedNode],
             error := none, spfRecord := some "v=spf1 include:shared.example -all" }]
        error := none, spfRecord := some "v=spf1 include:a.example include:b.example -all" } := by
  have hok : siblingDns "root.example" =
      .ok ["v=spf1 include:a.example include:b.example -all"] := rfl
  have hfind : (["v=spf1 include:a.example include:b.example -all"] : List String).find?
      (fun recordStr => hasSpfTag recordStr) =
      some "v=spf1 include:a.example include:b.example -all" := by decide
  have hparse : parseSpfRecord "v=spf1 include:a.example include:b.example -all" =
      { ipv4 := [], includes := ["a.example", "b.example"] } := by decide
  rw [lookup_spf siblingDns 10 0 "root.example" [] (by decide) hok hfind, hparse]
  simp [sibling_eval_a, sibling_eval_b]

/-- Test oracle for the failing-sibling scenario: the root includes
`bad.example` (whose lookup fails) followed by `good.example` (which
resolves normally). -/
def failDns : DnsOracle := fun d =>
  if d = "root.example" then .ok ["v=spf1 include:bad.example include:good.example -all"]
  else if d = "good.example" then .ok ["v=spf1 ip4:203.0.113.0/24 -all"]
  else .error "queryTxt ENOTFOUND bad.example"

theorem fail_eval_bad :
    lookupSpfRecords failDns 10 1 "bad.example" ["root.example"] =
      { domain := "bad.example", ipRanges := [], children := [],
        error := some "queryTxt ENOTFOUND bad.example", spfRecord := none } := by
  rw [lookup_dnsError failDns 10 1 "bad.example" ["root.example"] (by decide) rfl]

theorem fail_eval_good :
    lookupSpfRecords failDns 10 1 "good.example" ["root.example"] =
      { domain := "good.example", ipRanges := ["203.0.113.0/24"], children := [],
        error := none, spfRecord := some "v=spf1 ip4:203.0.113.0/24 -all" } := by
  have hok : failDns "good.example" = .ok ["v=spf1 ip4:203.0.113.0/24 -all"] := rfl
  have hfind : (["v=spf1 ip4:203.0.113.0/24 -all"] : List String).find?
      (fun recordStr => hasSpfTag recordStr) = some "v=spf1 ip4:203.0.113.0/24 -all" := by decide
  have hparse : parseSpfRecord "v=spf1 ip4:203.0.113.0/24 -all" =
      { ipv4 := ["203.0.113.0/24"], includes := [] } := by decide
  rw [lookup_spf failDns 10 1 "good.example" ["root.example"] (by decide) hok hfind, hparse]
  simp

theorem fail_eval_root :
    lookupSpfRecords failDns 10 0 "root.example" [] =
      { domain := "root.example", ipRanges := []
        children :=
          [{ domain := "bad.example", ipRanges := [], children := [],
             error := some "queryTxt ENOTFOUND bad.example", spfRecord := none },
           { domain := "good.example", ipRanges := ["203.0.113.0/24"], children := [],
             error := none, spfRecord := some "v=spf1 ip4:203.0.113.0/24 -all" }]
        error := none, spfRecord := some "v=spf1 include:bad.example include:good.example -all" } := by
  have hok : failDns "root.example" =
      .ok ["v=spf1 include:bad.example include:good.example -all"] := rfl
  have hfind : (["v=spf1 include:bad.example include:good.example -all"] : List String).find?
      (fun recordStr => hasSpfTag recordStr) =
      some "v=spf1 include:bad.example include:good.example -all" := by decide
  have hparse : parseSpfRecord "v=spf1 include:bad.example include:good.example -all" =
      { ipv4 := [], includes := ["bad.example", "good.example"] } := by decide
  rw [lookup_spf failDns 10 0 "root.example" [] (by decide) hok hfind, hparse]
  simp [fail_eval_bad, fail_eval_good]

/-- C1: For every domain, maxDepth, visited set and DNS oracle, `resolve`
terminates and returns a finite tree (`lookupSpfRecords` is a total Lean
function; the explicit height bound `maxDepth + 2` makes the depth bound
a theorem), no root-to-node path re-enters a domain already in its own
ancestor chain (a node whose domain repeats an ancestor is a terminal
error node, never expanded again), and in the concrete A-includes-B,
B-includes-A cycle the second visit to A yields the node error
"Circular reference detected" with empty children. -/
theorem claim_C1 (dns : DnsOracle) (maxDepth depth : Nat) (domain : String)
    (visited : List String) :
    HeightLe (maxDepth + 2) (lookupSpfRecords dns maxDepth depth domain visited) ∧
    (∀ (p : List String) (u : SpfNode),
      PathTo (lookupSpfRecords dns maxDepth depth domain visited) p u →
      u.domain ∈ p → u.children = [] ∧ u.error ≠ none) ∧
    lookupSpfRecords cycleDns 10 0 "a.example" [] =
      { domain := "a.example", ipRanges := []
        children := [{ domain := "b.example", ipRanges := []
                       children := [{ domain := "a.example", ipRanges := [], children := [],
                                      error := some "Circular reference detected",
                                      spfRecord := none }]
                       error := none, spfRecord := some "v=spf1 include:a.example -all" }]
        error := none, spfRecord := some "v=spf1 include:b.example -all" } := by
  refine ⟨?_, ?_, cycle_eval_root⟩
  · exact (lookup_height_aux dns maxDepth (maxDepth + 1 - depth) depth (le_refl _) domain
      visited).mono (by omega)
  · intro p u hpath hmem
    exact (lookup_path_invariant dns maxDepth p depth domain visited u hpath).2.2 (Or.inl hmem)

theorem claim_C1_witness :
    HeightLe 12 (lookupSpfRecords cycleDns 10 0 "a.example" []) ∧
    ({ domain := "a.example", ipRanges := [], children := [],
       error := some "Circular reference detected", spfRecord := none } : SpfNode).children = []
      ∧ ({ domain := "a.example", ipRanges := [], children := [],
           error := some "Circular reference detected", spfRecord := none } : SpfNode).error
          ≠ none := by
  refine ⟨(claim_C1 cycleDns 10 0 "a.example" []).1, ?_⟩
  refine (claim_C1 cycleDns 10 0 "a.example" []).2.1 ["a.example", "b.example"]
    { domain := "a.example", ipRanges := [], children := [],
      error := some "Circular reference detected", spfRecord := none } ?_ (by decide)
  rw [cycle_eval_root]
  have h1 : PathTo
      { domain := "b.example", ipRanges := []
        children := [{ domain := "a.example", ipRanges := [], children := [],
                       error := some "Circular reference detected", spfRecord := none }]
        error := none, spfRecord := some "v=spf1 include:a.example -all" }
      ["b.example"]
      { domain := "a.example", ipRanges := [], children := [],
        error := some "Circular reference detected", spfRecord := none } :=
    PathTo.via (by simp) (PathTo.here _)
  exact PathTo.via (by simp) h1

/-- C2: A call with `depth ≤ maxDepth` and `domain ∈ visited` returns
the terminal "Circular reference detected" node with empty ranges and
children and no record, for every DNS oracle alike (so no DNS lookup can
influence the result), and along any root-to-node traversal path of any
returned tree the proper-ancestor domain sequence has no duplicate — a
node whose own domain would repeat an ancestor is the terminal cut-off
node with an error and no children, never an expansion. -/
theorem claim_C2 (dns : DnsOracle) (maxDepth depth : Nat) (domain : String)
    (visited : List String) (hdep : depth ≤ maxDepth) (hvis : domain ∈ visited) :
    lookupSpfRecords dns maxDepth depth domain visited =
      { domain := domain, ipRanges := [], children := [],
        error := some "Circular reference detected", spfRecord := none } ∧
    (∀ (p : List String) (depth2 : Nat) (domain2 : String) (visited2 : List String) (u : SpfNode),
      PathTo (lookupSpfRecords dns maxDepth depth2 domain2 visited2) p u →
      p.Nodup ∧ (u.domain ∈ p → u.children = [] ∧ u.error ≠ none)) := by
  constructor
  · rw [lookup_guard dns maxDepth depth domain visited (Or.inr hvis),
      if_neg (show ¬depth > maxDepth by omega)]
  · intro p depth2 domain2 visited2 u hpath
    obtain ⟨h1, _, h3⟩ := lookup_path_invariant dns maxDepth p depth2 domain2 visited2 u hpath
    exact ⟨h1, fun hm => h3 (Or.inl hm)⟩

theorem claim_C2_witness :
    lookupSpfRecords cycleDns 10 3 "x.example" ["x.example"] =
      { domain := "x.example", ipRanges := [], children := [],
        error := some "Circular reference detected", spfRecord := none } :=
  (claim_C2 cycleDns 10 3 "x.example" ["x.example"] (by decide) (by decide)).1

/-- C3: A call with `depth > maxDepth` returns the terminal "Max depth
reached" node with empty ranges and children, for every DNS oracle alike
(no DNS lookup can influence the result) and for every visited set —
including one that already contains the domain, which shows that the
depth check takes precedence over the cycle check. -/
theorem claim_C3 (dns : DnsOracle) (maxDepth depth : Nat) (domain : String)
    (visited : List String) (hdep : depth > maxDepth) :
    lookupSpfRecords dns maxDepth depth domain visited =
      { domain := domain, ipRanges := [], children := [],
        error := some "Max depth reached", spfRecord := none } := by
  rw [lookup_guard dns maxDepth depth domain visited (Or.inl hdep), if_pos hdep]

theorem claim_C3_witness :
    lookupSpfRecords cycleDns 10 11 "a.example" ["a.example"] =
      { domain := "a.example", ipRanges := [], children := [],
        error := some "Max depth reached", spfRecord := none } :=
  claim_C3 cycleDns 10 11 "a.example" ["a.example"] (by decide)

/-- C8: Whenever a record is expanded, every recursive call for an
include target receives the value `domain :: visited` — the path-local
visited set plus the current domain, computed before any sibling runs —
so sibling branches can never observe each other's additions (the
children list is a `map` of a function of the include name and this one
shared value).  The set object held by the caller only ever gains the
current domain itself (`lookupVisitedAfter`), never a descendant's
addition.  Concretely, `shared.example` is fully re-resolved in both
sibling branches of `root.example` without any
"Circular reference detected". -/
theorem claim_C8 (dns : DnsOracle) (maxDepth depth : Nat) (domain : String)
    (visited : List String) (h : ¬(depth > maxDepth ∨ domain ∈ visited))
    {records : List String} (hok : dns domain = .ok records)
    {recordStr : String}
    (hfind : records.find? (fun recordStr => hasSpfTag recordStr) = some recordStr) :
    (lookupSpfRecords dns maxDepth depth domain visited).children =
      (parseSpfRecord recordStr).includes.map (fun inc =>
        lookupSpfRecords dns maxDepth (depth + 1) inc (domain :: visited)) ∧
    lookupVisitedAfter maxDepth depth domain visited = domain :: visited ∧
    lookupSpfRecords siblingDns 10 0 "root.example" [] =
      { domain := "root.example", ipRanges := []
        children :=
          [{ domain := "a.example", ipRanges := [], children := [sharedNode],
             error := none, spfRecord := some "v=spf1 include:shared.example -all" },
           { domain := "b.example", ipRanges := [], children := [sharedNode],
             error := none, spfRecord := some "v=spf1 include:shared.example -all" }]
        error := none, spfRecord := some "v=spf1 include:a.example include:b.example -all" } := by
  refine ⟨?_, ?_, sibling_eval_root⟩
  · rw [lookup_spf dns maxDepth depth domain visited h hok hfind]
  · unfold lookupVisitedAfter
    rw [if_neg h]

theorem claim_C8_witness :
    (lookupSpfRecords siblingDns 10 0 "root.example" []).children =
      (parseSpfRecord "v=spf1 include:a.example include:b.example -all").includes.map (fun inc =>
        lookupSpfRecords siblingDns 10 1 inc ["root.example"]) ∧
    lookupVisitedAfter 10 0 "root.example" [] = ["root.example"] := by
  have hfind : (["v=spf1 include:a.example include:b.example -all"] : List String).find?
      (fun recordStr => hasSpfTag recordStr) =
      some "v=spf1 include:a.example include:b.example -all" := by decide
  exact ⟨(claim_C8 siblingDns 10 0 "root.example" [] (by decide) rfl hfind).1,
    (claim_C8 siblingDns 10 0 "root.example" [] (by decide) rfl hfind).2.1⟩

/-- C9: When the TXT lookup of a domain fails, the returned node carries
the failure description in `error` with empty `ipRanges` and `children`;
and a failing subtree never causes a sibling subtree to be skipped or
the parent to fail: concretely, under `failDns` the root still resolves
with both children present — the failed `bad.example` node and the fully
resolved `good.example` sibling. -/
theorem claim_C9 (dns : DnsOracle) (maxDepth depth : Nat) (domain : String)
    (visited : List String) (h : ¬(depth > maxDepth ∨ domain ∈ visited))
    {msg : String} (herr : dns domain = .error msg) :
    lookupSpfRecords dns maxDepth depth domain visited =
      { domain := domain, ipRanges := [], children := [], error := some msg,
        spfRecord := none } ∧
    lookupSpfRecords failDns 10 0 "root.example" [] =
      { domain := "root.example", ipRanges := []
        children :=
          [{ domain := "bad.example", ipRanges := [], children := [],
             error := some "queryTxt ENOTFOUND bad.example", spfRecord := none },
           { domain := "good.example", ipRanges := ["203.0.113.0/24"], children := [],
             error := none, spfRecord := some "v=spf1 ip4:203.0.113.0/24 -all" }]
        error := none,
        spfRecord := some "v=spf1 include:bad.example include:good.example -all" } :=
  ⟨lookup_dnsError dns maxDepth depth domain visited h herr, fail_eval_root⟩

theorem claim_C9_witness :
    lookupSpfRecords failDns 10 1 "bad.example" ["root.example"] =
      { domain := "bad.example", ipRanges := [], children := [],
        error := some "queryTxt ENOTFOUND bad.example", spfRecord := none } :=
  (claim_C9 failDns 10 1 "bad.example" ["root.example"] (by decide) rfl).1

/-- C10: In every node of every tree returned by the resolver, a set
error implies empty `ipRanges`, empty `children` and a `null`
`spfRecord`: the code couples the error field and the record state
strictly, a node never carries both an error and a record. -/
theorem claim_C10 (dns : DnsOracle) (maxDepth depth : Nat) (domain : String)
    (visited : List String) (p : List String) (u : SpfNode)
    (hpath : PathTo (lookupSpfRecords dns maxDepth depth domain visited) p u)
    (herr : u.error ≠ none) :
    u.ipRanges = [] ∧ u.children = [] ∧ u.spfRecord = none := by
  obtain ⟨depth2, domain2, visited2, rfl⟩ :=
    lookup_path_node dns maxDepth p depth domain visited u hpath
  exact lookup_error_shape dns maxDepth depth2 domain2 visited2 herr

theorem claim_C10_witness :
    ({ domain := "bad.example", ipRanges := [], children := [],
       error := some "queryTxt ENOTFOUND bad.example", spfRecord := none } : SpfNode).ipRanges
      = [] ∧
    ({ domain := "bad.example", ipRanges := [], children := [],
       error := some "queryTxt ENOTFOUND bad.example", spfRecord := none } : SpfNode).children
      = [] ∧
    ({ domain := "bad.example", ipRanges := [], children := [],
       error := some "queryTxt ENOTFOUND bad.example", spfRecord := none } : SpfNode).spfRecord
      = none := by
  refine claim_C10 failDns 10 0 "root.example" [] ["root.example"]
    { domain := "bad.example", ipRanges := [], children := [],
      error := some "queryTxt ENOTFOUND bad.example", spfRecord := none } ?_ (by simp)
  rw [fail_eval_root]
  exact PathTo.via (by simp) (PathTo.here _)

theorem find?_first_match {α : Type} (p : α → Bool) (r : α) (rs2 : List α) :
    ∀ rs1 : List α, (∀ x ∈ rs1, p x = false) → p r = true →
      List.find? p (rs1 ++ r :: rs2) = some r := by
  intro rs1
  induction rs1 with
  | nil =>
    intro _ hr
    simp [List.find?_cons_of_pos, hr]
  | cons a as ih =>
    intro hall hr
    have ha : p a = false := hall a (List.mem_cons_self a as)
    rw [List.cons_append, List.find?_cons_of_neg _ (by simp [ha])]
    exact ih (fun x hx => hall x (List.mem_cons_of_mem a hx)) hr

/-- C4: On a successful TXT lookup, the resolver scans the records in
the order received and processes exactly the first record containing the
`v=spf1` marker — the raw text becomes `spfRecord`, the parsed `ip4`
values become `ipRanges`, the parsed includes drive the child
resolutions, and every record after the first match is ignored (the
result does not even depend on them).  If no record carries the marker,
the node has empty ranges and children, a `null` record and no error. -/
theorem claim_C4 (dns : DnsOracle) (maxDepth depth : Nat) (domain : String)
    (visited : List String) (h : ¬(depth > maxDepth ∨ domain ∈ visited))
    {records : List String} (hok : dns domain = .ok records) :
    ((∀ recordStr ∈ records, hasSpfTag recordStr = false) →
      lookupSpfRecords dns maxDepth depth domain visited =
        { domain := domain, ipRanges := [], children := [], error := none,
          spfRecord := none }) ∧
    (∀ (rs1 : List String) (recordStr : String) (rs2 : List String),
      records = rs1 ++ recordStr :: rs2 →
      (∀ x ∈ rs1, hasSpfTag x = false) → hasSpfTag recordStr = true →
      lookupSpfRecords dns maxDepth depth domain visited =
        { domain := domain
          ipRanges := (parseSpfRecord recordStr).ipv4
          children := (parseSpfRecord recordStr).includes.map fun inc =>
            lookupSpfRecords dns maxDepth (depth + 1) inc (domain :: visited)
          error := none
          spfRecord := some recordStr }) := by
  constructor
  · intro hall
    have hnone : records.find? (fun recordStr => hasSpfTag recordStr) = none :=
      List.find?_eq_none.mpr fun x hx => by simp [hall x hx]
    exact lookup_noSpf dns maxDepth depth domain visited h hok hnone
  · intro rs1 recordStr rs2 hsplit hall hr
    subst hsplit
    have hfind : (rs1 ++ recordStr :: rs2).find? (fun recordStr => hasSpfTag recordStr) =
        some recordStr := find?_first_match _ recordStr rs2 rs1 hall hr
    exact lookup_spf dns maxDepth depth domain visited h hok hfind

/-- Test oracle for the record-selection scenario: `multi.example` has a
non-SPF TXT record first and an SPF-tagged record second;
`nospf.example` has only a non-SPF record. -/
def multiDns : DnsOracle := fun d =>
  if d = "multi.example" then
    .ok ["google-site-verification=token123", "v=spf1 ip4:1.2.3.0/24 -all"]
  else if d = "nospf.example" then .ok ["just some text"]
  else .error "queryTxt ENOTFOUND"

theorem claim_C4_witness :
    lookupSpfRecords multiDns 10 0 "nospf.example" [] =
      { domain := "nospf.example", ipRanges := [], children := [], error := none,
        spfRecord := none } ∧
    lookupSpfRecords multiDns 10 0 "multi.example" [] =
      { domain := "multi.example", ipRanges := ["1.2.3.0/24"], children := [], error := none,
        spfRecord := some "v=spf1 ip4:1.2.3.0/24 -all" } := by
  constructor
  · exact (claim_C4 multiDns 10 0 "nospf.example" [] (by decide) rfl).1 (by decide)
  · have h := (claim_C4 multiDns 10 0 "multi.example" [] (by decide) rfl).2
      ["google-site-verification=token123"] "v=spf1 ip4:1.2.3.0/24 -all" [] rfl
      (by decide) (by decide)
    rw [h]
    have hparse : parseSpfRecord "v=spf1 ip4:1.2.3.0/24 -all" =
        { ipv4 := ["1.2.3.0/24"], includes := [] } := by decide
    rw [hparse]
    rfl

/-- One flattened range entry: the `{ range, domain }` object. -/
structure RangeEntry where
  range : String
  domain : String
deriving DecidableEq, Repr

mutual
/-- Model of `collectAllIpRanges` (src/server.js lines 90-103), with the
mutable accumulator array `ranges` made explicit: the node pushes its
own entries (when it has any), then each child is collected in turn into
the same accumulator (the `forEach` loop is `collectChildren`). -/
def collectAllIpRanges : SpfNode → List RangeEntry → List RangeEntry
  | SpfNode.mk d ips cs _ _, ranges =>
      let ranges2 := if ips.length > 0
        then ranges ++ ips.map (fun range => { range := range, domain := d })
        else ranges
      collectChildren cs ranges2
def collectChildren : List SpfNode → List RangeEntry → List RangeEntry
  | [], ranges => ranges
  | c :: cs, ranges => collectChildren cs (collectAllIpRanges c ranges)
end

mutual
/-- Modelled from the spec's words (4.3 Range Collector): the depth-first
pre-order flattening — one entry per `ip4` value attributed to the
node's own domain, the node's own entries before all of its children's,
children in their stored order. -/
def preOrderRanges : SpfNode → List RangeEntry
  | SpfNode.mk d ips cs _ _ =>
      ips.map (fun range => { range := range, domain := d }) ++ preOrderList cs
def preOrderList : List SpfNode → List RangeEntry
  | [] => []
  | c :: cs => preOrderRanges c ++ preOrderList cs
end

theorem collect_append (n : Nat) :
    (∀ t : SpfNode, sizeOf t ≤ n → ∀ ranges,
      collectAllIpRanges t ranges = ranges ++ preOrderRanges t) ∧
    (∀ l : List SpfNode, sizeOf l ≤ n → ∀ ranges,
      collectChildren l ranges = ranges ++ preOrderList l) := by
  induction n with
  | zero =>
    constructor
    · intro t ht
      exact absurd ht (by cases t; simp)
    · intro l hl
      exact absurd hl (by cases l <;> simp)
  | succ n ih =>
    constructor
    · intro t ht ranges
      cases t with
      | mk d ips cs e s =>
        have hcs : sizeOf cs ≤ n := by
          simp only [SpfNode.mk.sizeOf_spec] at ht
          omega
        rw [collectAllIpRanges, preOrderRanges]
        by_cases hips : ips.length > 0
        · rw [if_pos hips, ih.2 cs hcs, List.append_assoc]
        · have : ips = [] := List.length_eq_zero.mp (by omega)
          subst this
          rw [if_neg hips, ih.2 cs hcs]
          simp
    · intro l hl ranges
      cases l with
      | nil => rw [collectChildren, preOrderList, List.append_nil]
      | cons c cs =>
        have hc : sizeOf c ≤ n := by
          simp only [List.cons.sizeOf_spec] at hl
          omega
        have hcs : sizeOf cs ≤ n := by
          simp only [List.cons.sizeOf_spec] at hl
          omega
        rw [collectChildren, preOrderList, ih.1 c hc, ih.2 cs hcs, List.append_assoc]

theorem collect_eq_preOrder (t : SpfNode) (ranges : List RangeEntry) :
    collectAllIpRanges t ranges = ranges ++ preOrderRanges t :=
  (collect_append (sizeOf t)).1 t (le_refl _) ranges

/-- Trees in which no node declares any `ip4` range. -/
inductive NoRanges : SpfNode → Prop where
  | mk {t : SpfNode} (hip : t.ipRanges = []) (hc : ∀ c ∈ t.children, NoRanges c) : NoRanges t

theorem preOrder_of_noRanges {t : SpfNode} (h : NoRanges t) : preOrderRanges t = [] := by
  induction h with
  | mk hip hc ih =>
    rename_i t
    cases t with
    | mk d ips cs e s =>
      simp only at hip
      subst hip
      rw [preOrderRanges]
      simp only [List.map_nil, List.nil_append]
      simp only at ih
      clear hc
      induction cs with
      | nil => rw [preOrderList]
      | cons c cs2 ihcs =>
        rw [preOrderList, ih c (List.mem_cons_self c cs2)]
        simp only [List.nil_append]
        exact ihcs fun u hu => ih u (List.mem_cons_of_mem c hu)

/-- C6: `collect` is a pure total function (it is a total Lean function
by construction) computing exactly the depth-first pre-order flattening
`preOrderRanges` — one `RangeEntry` per `ip4` value attributed to the
owning node's domain, a node's own entries before all of its children's,
children in stored order — and a tree with no ranges anywhere yields the
empty sequence. -/
theorem claim_C6 (t : SpfNode) :
    collectAllIpRanges t [] = preOrderRanges t ∧
    (NoRanges t → collectAllIpRanges t [] = []) := by
  constructor
  · rw [collect_eq_preOrder, List.nil_append]
  · intro h
    rw [collect_eq_preOrder, List.nil_append, preOrder_of_noRanges h]

theorem claim_C6_witness :
    collectAllIpRanges
      (SpfNode.mk "root" ["10.0.0.0/8"]
        [SpfNode.mk "include.com" ["192.168.1.0/24"] [] none none] none none) [] =
      [{ range := "10.0.0.0/8", domain := "root" },
       { range := "192.168.1.0/24", domain := "include.com" }] ∧
    collectAllIpRanges (SpfNode.mk "leaf.example" [] [] none none) [] = [] := by
  constructor
  · rw [(claim_C6 _).1]
    rw [preOrderRanges, preOrderList, preOrderRanges, preOrderList]
    simp
  · exact (claim_C6 _).2 (NoRanges.mk rfl (by simp))

/-- The injected `ip-range-check` capability: given an IP and a range it
either answers the containment question or raises (an `error`, the
thrown exception's message). -/
abbrev RangeOracle := String → String → Except String Bool

/-- Model of `checkIpInRanges` (src/server.js lines 106-121).  The first
component is the `matches` array; the second component records the
`console.warn` diagnostics emitted for entries whose range made the
library throw (those entries are skipped and the loop continues). -/
def checkIpInRanges (check : RangeOracle) (ip : String) (ranges : List RangeEntry) :
    List RangeEntry × List String :=
  ranges.foldl
    (fun acc e =>
      match check ip e.range with
      | .ok true => (acc.1 ++ [e], acc.2)
      | .ok false => acc
      | .error msg => (acc.1, acc.2 ++ ["Invalid range " ++ e.range ++ ": " ++ msg]))
    ([], [])

/-- Model of the core of the `POST /api/check-ip` route (src/server.js
lines 155-164): resolve the tree with the default parameters, flatten,
match, and expose `matches` and `isAuthorized = matches.length > 0`. -/
def apiCheckIp (check : RangeOracle) (dns : DnsOracle) (ip : String) (domain : String) :
    List RangeEntry × Bool :=
  let spfTree := lookupSpfRecords dns 10 0 domain []
  let allRanges := collectAllIpRanges spfTree []
  let found := (checkIpInRanges check ip allRanges).1
  (found, found.length > 0)

theorem checkIpInRanges_foldl (check : RangeOracle) (ip : String) :
    ∀ (ranges : List RangeEntry) (acc : List RangeEntry × List String),
      ranges.foldl
        (fun acc e =>
          match check ip e.range with
          | .ok true => (acc.1 ++ [e], acc.2)
          | .ok false => acc
          | .error msg => (acc.1, acc.2 ++ ["Invalid range " ++ e.range ++ ": " ++ msg]))
        acc =
      (acc.1 ++ ranges.filter (fun e =>
          match check ip e.range with
          | .ok true => true
          | _ => false),
       acc.2 ++ ranges.filterMap (fun e =>
          match check ip e.range with
          | .error msg => some ("Invalid range " ++ e.range ++ ": " ++ msg)
          | _ => none)) := by
  intro ranges
  induction ranges with
  | nil =>
    intro acc
    simp
  | cons e es ih =>
    intro acc
    rw [List.foldl_cons, ih]
    rcases hc : check ip e.range with msg | b
    · simp [List.filter_cons, List.filterMap_cons, hc]
    · cases b
      · simp [List.filter_cons, List.filterMap_cons, hc]
      · simp [List.filter_cons, List.filterMap_cons, hc]

/-- C7: the matcher returns exactly the order-preserving subsequence of
entries whose range contains the IP according to the containment
capability (`List.filter`); an entry on which the capability raises is
skipped with a warning diagnostic while every remaining entry is still
evaluated (the warning list is the `filterMap` of the raising entries);
and at the route boundary `isAuthorized` is true iff the match sequence
is non-empty. -/
theorem claim_C7 (check : RangeOracle) (dns : DnsOracle) (ip : String)
    (ranges : List RangeEntry) (domain : String) :
    (checkIpInRanges check ip ranges).1 =
      ranges.filter (fun e =>
        match check ip e.range with
        | .ok true => true
        | _ => false) ∧
    (checkIpInRanges check ip ranges).2 =
      ranges.filterMap (fun e =>
        match check ip e.range with
        | .error msg => some ("Invalid range " ++ e.range ++ ": " ++ msg)
        | _ => none) ∧
    ((apiCheckIp check dns ip domain).2 = true ↔ (apiCheckIp check dns ip domain).1 ≠ []) := by
  refine ⟨?_, ?_, ?_⟩
  · unfold checkIpInRanges
    rw [checkIpInRanges_foldl]
    simp
  · unfold checkIpInRanges
    rw [checkIpInRanges_foldl]
    simp
  · unfold apiCheckIp
    simp [List.length_pos]

/-- Accumulator-based whitespace tokenizer (spec-side device): `acc`
holds the reversed characters of the token currently being read. -/
def wsTokensAux : List Char → List Char → List (List Char)
  | [], acc => if acc.isEmpty then [] else [acc.reverse]
  | c :: cs, acc =>
      if isSpaceChar c then
        if acc.isEmpty then wsTokensAux cs [] else acc.reverse :: wsTokensAux cs []
      else wsTokensAux cs (c :: acc)

/-- The whitespace-delimited tokens of a string, in order. -/
def wsTokens (s : List Char) : List (List Char) := wsTokensAux s []

/-- Modelled from the spec's words (4.1 Record Parser, and the C5 claim):
the values of the whitespace-delimited tokens of the form `pfx<value>`
(token starts with the literal `pfx`, the non-empty `<value>` is the
rest of the token), in order of appearance. -/
def tokenVals (pfx : List Char) (s : List Char) : List (List Char) :=
  (wsTokens s).filterMap fun t =>
    if pfx.isPrefixOf t && decide (pfx.length < t.length) then some (t.drop pfx.length)
    else none

/-- Modelled from the spec's words: the token-based reading of the
record parser — `ip4:`/`include:` values extracted from whole
whitespace-delimited tokens of the form `ip4:<value>` /
`include:<value>`. -/
def tokenParse (recordStr : String) : SpfParts :=
  { ipv4 := (tokenVals ip4Pfx recordStr.toList).map fun l => String.mk l
    includes := (tokenVals includePfx recordStr.toList).map fun l => String.mk l }

/-- Checks that every occurrence of `pfx` in the string is token-initial
(at the start of the string with the flag true, or right after a
whitespace character): the flag records whether the previous character
was whitespace. -/
def tokenInitialAux (pfx : List Char) : Bool → List Char → Bool
  | _, [] => true
  | prevSpace, c :: cs =>
      (!(pfx.isPrefixOf (c :: cs)) || prevSpace) && tokenInitialAux pfx (isSpaceChar c) cs

/-- Every occurrence of `pfx` in `s` starts a whitespace-delimited
token. -/
def tokenInitialOnly (pfx : List Char) (s : List Char) : Bool :=
  tokenInitialAux pfx true s

theorem takeWhile_append_all {p : Char → Bool} :
    ∀ (u v : List Char), (∀ x ∈ u, p x = true) →
      (u ++ v).takeWhile p = u ++ v.takeWhile p := by
  intro u v
  induction u with
  | nil => intro _; rfl
  | cons a as ih =>
    intro hall
    rw [List.cons_append, List.takeWhile_cons, hall a (List.mem_cons_self a as)]
    simp only [List.cons_append, List.cons.injEq, true_and]
    exact congrArg _ (ih fun x hx => hall x (List.mem_cons_of_mem a hx))

theorem dropWhile_append_all {p : Char → Bool} :
    ∀ (u v : List Char), (∀ x ∈ u, p x = true) →
      (u ++ v).dropWhile p = v.dropWhile p := by
  intro u v
  induction u with
  | nil => intro _; rfl
  | cons a as ih =>
    intro hall
    rw [List.cons_append, List.dropWhile_cons, hall a (List.mem_cons_self a as)]
    simp only [if_true]
    exact ih fun x hx => hall x (List.mem_cons_of_mem a hx)

theorem drop_length_takeWhile {p : Char → Bool} :
    ∀ l : List Char, l.drop (l.takeWhile p).length = l.dropWhile p := by
  intro l
  induction l with
  | nil => rfl
  | cons a as ih =>
    rw [List.takeWhile_cons, List.dropWhile_cons]
    by_cases hp : p a = true
    · rw [hp]
      simpa using ih
    · rw [Bool.not_eq_true] at hp
      rw [hp]
      simp

theorem wsTokens_cons_space {c : Char} (hc : isSpaceChar c = true) (cs : List Char) :
    wsTokens (c :: cs) = wsTokens cs := by
  unfold wsTokens
  rw [wsTokensAux, if_pos hc]
  rfl

theorem wsTokensAux_progress :
    ∀ (s acc : List Char), acc ≠ [] →
      wsTokensAux s acc =
        (acc.reverse ++ s.takeWhile (fun ch => !(isSpaceChar ch))) ::
          wsTokens (s.dropWhile (fun ch => !(isSpaceChar ch))) := by
  intro s
  induction s with
  | nil =>
    intro acc hacc
    rw [wsTokensAux, if_neg (by simpa using hacc)]
    simp [wsTokens, wsTokensAux]
  | cons c cs ih =>
    intro acc hacc
    rw [List.takeWhile_cons, List.dropWhile_cons]
    by_cases hc : isSpaceChar c = true
    · rw [wsTokensAux, if_pos hc, if_neg (by simpa using hacc)]
      rw [hc]
      simp only [Bool.not_true, Bool.false_eq_true, if_false, List.append_nil]
      rw [wsTokens_cons_space hc]
      rfl
    · rw [Bool.not_eq_true] at hc
      rw [wsTokensAux, if_neg (by rw [hc]; exact Bool.false_ne_true)]
      rw [ih (c :: acc) (by simp), hc]
      simp

theorem wsTokens_cons_nonspace {c : Char} (hc : isSpaceChar c = false) (cs : List Char) :
    wsTokens (c :: cs) =
      ((c :: cs).takeWhile (fun ch => !(isSpaceChar ch))) ::
        wsTokens ((c :: cs).dropWhile (fun ch => !(isSpaceChar ch))) := by
  rw [List.takeWhile_cons, List.dropWhile_cons, hc]
  simp only [Bool.not_false, if_true]
  unfold wsTokens
  rw [wsTokensAux, if_neg (by rw [hc]; exact Bool.false_ne_true)]
  rw [wsTokensAux_progress cs [c] (by simp)]
  rfl

theorem scanAux_skip (pfx : List Char) :
    ∀ (l : List Char) (k : Nat), scanAux pfx l k = scanAux pfx (l.drop k) 0 := by
  intro l
  induction l with
  | nil => intro k; simp [scanAux]
  | cons c cs ih =>
    intro k
    cases k with
    | zero => rfl
    | succ k2 =>
      rw [List.drop_succ_cons]
      exact ih k2

theorem isPrefixOf_head_space {pfx : List Char} (hne : pfx ≠ [])
    (hns : ∀ ch ∈ pfx, isSpaceChar ch = false) {c : Char} (hc : isSpaceChar c = true)
    (cs : List Char) : pfx.isPrefixOf (c :: cs) = false := by
  cases pfx with
  | nil => exact absurd rfl hne
  | cons p ps =>
    have hp : isSpaceChar p = false := hns p (List.mem_cons_self p ps)
    have hpc : p ≠ c := by
      intro habs
      rw [habs, hc] at hp
      exact absurd hp (by decide)
    simp [List.isPrefixOf, hpc]

theorem tokenInitialAux_step {pfx : List Char} {b : Bool} {c : Char} {cs : List Char}
    (h : tokenInitialAux pfx b (c :: cs) = true) :
    (pfx.isPrefixOf (c :: cs) = false ∨ b = true) ∧
      tokenInitialAux pfx (isSpaceChar c) cs = true := by
  rw [tokenInitialAux, Bool.and_eq_true, Bool.or_eq_true, Bool.not_eq_true'] at h
  exact h

theorem tokenInitialAux_flag {pfx : List Char} (hne : pfx ≠ [])
    (hns : ∀ ch ∈ pfx, isSpaceChar ch = false) (s : List Char) (b b2 : Bool)
    (hs : s.head? = none ∨ ∃ c, s.head? = some c ∧ isSpaceChar c = true) :
    tokenInitialAux pfx b s = tokenInitialAux pfx b2 s := by
  cases s with
  | nil => rfl
  | cons c cs =>
    rcases hs with habs | ⟨c2, hc2, hsp⟩
    · exact absurd habs (by simp)
    · have : c2 = c := by
        simpa using hc2.symm
      subst this
      rw [tokenInitialAux, tokenInitialAux,
        isPrefixOf_head_space hne hns hsp cs]
      simp

theorem tokenInitialAux_drop {pfx : List Char} :
    ∀ (s : List Char) (b : Bool), tokenInitialAux pfx b s = true →
      ∀ k, ∃ b2, tokenInitialAux pfx b2 (s.drop k) = true := by
  intro s
  induction s with
  | nil =>
    intro b _ k
    exact ⟨true, by simp [tokenInitialAux]⟩
  | cons c cs ih =>
    intro b h k
    cases k with
    | zero => exact ⟨b, h⟩
    | succ k2 =>
      rw [List.drop_succ_cons]
      exact ih (isSpaceChar c) (tokenInitialAux_step h).2 k2

theorem head_dropWhile_space :
    ∀ l : List Char,
      ((l.dropWhile (fun ch => !(isSpaceChar ch))).head? = none) ∨
      ∃ c, (l.dropWhile (fun ch => !(isSpaceChar ch))).head? = some c ∧
        isSpaceChar c = true := by
  intro l
  induction l with
  | nil => exact Or.inl rfl
  | cons a as ih =>
    rw [List.dropWhile_cons]
    by_cases ha : isSpaceChar a = true
    · rw [ha]
      exact Or.inr ⟨a, by simp, ha⟩
    · rw [Bool.not_eq_true] at ha
      rw [ha]
      simpa using ih

theorem scan_interior {pfx : List Char}
    (hns : ∀ ch ∈ pfx, isSpaceChar ch = false) :
    ∀ (w rest : List Char), (∀ ch ∈ w, isSpaceChar ch = false) →
      tokenInitialAux pfx false (w ++ rest) = true →
      scanAux pfx (w ++ rest) 0 = scanAux pfx rest 0 ∧
        tokenInitialAux pfx false rest = true := by
  intro w
  induction w with
  | nil => exact fun rest _ h => ⟨rfl, h⟩
  | cons x w2 ih =>
    intro rest hw h
    rw [List.cons_append] at h
    obtain ⟨hpre | habs, hnext⟩ := tokenInitialAux_step h
    · have hx : isSpaceChar x = false := hw x (List.mem_cons_self x w2)
      rw [hx] at hnext
      obtain ⟨hscan, htok⟩ := ih rest (fun ch hch => hw ch (List.mem_cons_of_mem x hch)) hnext
      refine ⟨?_, htok⟩
      rw [List.cons_append, scanAux, hpre]
      simpa using hscan
    · exact absurd habs Bool.false_ne_true

theorem scanAux_cons_match {pfx : List Char} {c : Char} {cs : List Char}
    (hpre : pfx.isPrefixOf (c :: cs) = true)
    (hrun : ((c :: cs).drop pfx.length).takeWhile (fun ch => !(isSpaceChar ch)) ≠ []) :
    scanAux pfx (c :: cs) 0 =
      ((c :: cs).drop pfx.length).takeWhile (fun ch => !(isSpaceChar ch)) ::
        scanAux pfx cs
          (pfx.length +
            (((c :: cs).drop pfx.length).takeWhile (fun ch => !(isSpaceChar ch))).length - 1) := by
  conv_lhs => rw [scanAux]
  rw [if_pos]
  rw [hpre]
  simp [hrun]

theorem scanAux_cons_skip {pfx : List Char} {c : Char} {cs : List Char}
    (hcond : pfx.isPrefixOf (c :: cs) = false ∨
      ((c :: cs).drop pfx.length).takeWhile (fun ch => !(isSpaceChar ch)) = []) :
    scanAux pfx (c :: cs) 0 = scanAux pfx cs 0 := by
  conv_lhs => rw [scanAux]
  rw [if_neg]
  rcases hcond with h | h
  · rw [h]
    simp
  · rw [h]
    simp

theorem tokenVals_cons_space {pfx : List Char} {c : Char} (hc : isSpaceChar c = true)
    (cs : List Char) : tokenVals pfx (c :: cs) = tokenVals pfx cs := by
  unfold tokenVals
  rw [wsTokens_cons_space hc]

theorem tokenVals_cons_none {pfx : List Char} {c : Char} {cs : List Char}
    (hc : isSpaceChar c = false)
    (hft : (pfx.isPrefixOf ((c :: cs).takeWhile (fun ch => !(isSpaceChar ch))) &&
        decide (pfx.length < ((c :: cs).takeWhile (fun ch => !(isSpaceChar ch))).length)) = false) :
    tokenVals pfx (c :: cs) =
      tokenVals pfx ((c :: cs).dropWhile (fun ch => !(isSpaceChar ch))) := by
  unfold tokenVals
  rw [wsTokens_cons_nonspace hc, List.filterMap_cons]
  simp only [hft]
  simp

theorem tokenVals_cons_some {pfx : List Char} {c : Char} {cs : List Char}
    (hc : isSpaceChar c = false)
    (hft : (pfx.isPrefixOf ((c :: cs).takeWhile (fun ch => !(isSpaceChar ch))) &&
        decide (pfx.length < ((c :: cs).takeWhile (fun ch => !(isSpaceChar ch))).length)) = true) :
    tokenVals pfx (c :: cs) =
      ((c :: cs).takeWhile (fun ch => !(isSpaceChar ch))).drop pfx.length ::
        tokenVals pfx ((c :: cs).dropWhile (fun ch => !(isSpaceChar ch))) := by
  unfold tokenVals
  rw [wsTokens_cons_nonspace hc, List.filterMap_cons]
  simp only [hft]
  simp

theorem scan_token_interior {pfx : List Char}
    (hns : ∀ ch ∈ pfx, isSpaceChar ch = false) {c : Char} {cs : List Char}
    (hc : isSpaceChar c = false)
    (htok : tokenInitialAux pfx true (c :: cs) = true) :
    scanAux pfx cs 0 =
      scanAux pfx ((c :: cs).dropWhile (fun ch => !(isSpaceChar ch))) 0 := by
  have hcs_split : cs.takeWhile (fun ch => !(isSpaceChar ch)) ++
      cs.dropWhile (fun ch => !(isSpaceChar ch)) = cs :=
    List.takeWhile_append_dropWhile _ _
  have hw_ns : ∀ ch ∈ cs.takeWhile (fun ch => !(isSpaceChar ch)), isSpaceChar ch = false := by
    intro ch hch
    simpa using List.mem_takeWhile_imp hch
  have htok_int : tokenInitialAux pfx false
      (cs.takeWhile (fun ch => !(isSpaceChar ch)) ++
        cs.dropWhile (fun ch => !(isSpaceChar ch))) = true := by
    rw [hcs_split]
    have h2 := (tokenInitialAux_step htok).2
    rw [hc] at h2
    exact h2
  obtain ⟨hscan2, _⟩ := scan_interior hns _ _ hw_ns htok_int
  rw [hcs_split] at hscan2
  rw [hscan2, List.dropWhile_cons, hc]
  simp

/-- Under the hypothesis that every occurrence of the marker `pfx` in
the string is token-initial, the regex scan of `/pfx([^\s]+)/g` returns
exactly the values of the whitespace-delimited tokens of the form
`pfx<value>`, in order. -/
theorem scan_eq_tokenVals {pfx : List Char} (hne : pfx ≠ [])
    (hns : ∀ ch ∈ pfx, isSpaceChar ch = false) :
    ∀ (n : Nat) (s : List Char), s.length ≤ n → tokenInitialAux pfx true s = true →
      scanAux pfx s 0 = tokenVals pfx s := by
  intro n
  induction n with
  | zero =>
    intro s hs _
    have hnil : s = [] := List.length_eq_zero.mp (by omega)
    subst hnil
    rfl
  | succ n ih =>
    intro s hs htok
    cases s with
    | nil => rfl
    | cons c cs =>
      have hcs_len : cs.length ≤ n := by
        simp only [List.length_cons] at hs
        omega
      by_cases hc : isSpaceChar c = true
      · have hpre := isPrefixOf_head_space hne hns hc cs
        have hnext := (tokenInitialAux_step htok).2
        rw [hc] at hnext
        rw [scanAux_cons_skip (Or.inl hpre), ih cs hcs_len hnext, tokenVals_cons_space hc]
      · rw [Bool.not_eq_true] at hc
        have htsplit : (c :: cs).takeWhile (fun ch => !(isSpaceChar ch)) ++
            (c :: cs).dropWhile (fun ch => !(isSpaceChar ch)) = c :: cs :=
          List.takeWhile_append_dropWhile _ _
        have ht_ne : (c :: cs).takeWhile (fun ch => !(isSpaceChar ch)) ≠ [] := by
          rw [List.takeWhile_cons, hc]
          simp
        have hrest_head := head_dropWhile_space (c :: cs)
        have hrest_len : ((c :: cs).dropWhile (fun ch => !(isSpaceChar ch))).length ≤ n := by
          have hlen := congrArg List.length htsplit
          rw [List.length_append] at hlen
          have ht1 : 0 < ((c :: cs).takeWhile fun ch => !(isSpaceChar ch)).length :=
            List.length_pos.mpr ht_ne
          simp only [List.length_cons] at hlen
          omega
        have hrest_tok : tokenInitialAux pfx true
            ((c :: cs).dropWhile (fun ch => !(isSpaceChar ch))) = true := by
          obtain ⟨b2, hb2⟩ := tokenInitialAux_drop (c :: cs) true htok
            (((c :: cs).takeWhile (fun ch => !(isSpaceChar ch))).length)
          rw [drop_length_takeWhile] at hb2
          exact (tokenInitialAux_flag hne hns _ true b2 hrest_head).trans hb2
        have ihrest := ih _ hrest_len hrest_tok
        have hpfx_ns : ∀ x ∈ pfx, (fun ch => !(isSpaceChar ch)) x = true := by
          intro x hx
          simp [hns x hx]
        by_cases hpre : pfx.isPrefixOf (c :: cs) = true
        · obtain ⟨u, hu⟩ := List.isPrefixOf_iff_prefix.mp hpre
          have hdropu : (c :: cs).drop pfx.length = u := by
            rw [← hu, List.drop_left]
          have ht_eq : (c :: cs).takeWhile (fun ch => !(isSpaceChar ch)) =
              pfx ++ u.takeWhile (fun ch => !(isSpaceChar ch)) := by
            rw [← hu, takeWhile_append_all pfx u hpfx_ns]
          have hrest_eq : (c :: cs).dropWhile (fun ch => !(isSpaceChar ch)) =
              u.dropWhile (fun ch => !(isSpaceChar ch)) := by
            rw [← hu, dropWhile_append_all pfx u hpfx_ns]
          by_cases hrun : ((c :: cs).drop pfx.length).takeWhile (fun ch => !(isSpaceChar ch)) = []
          · -- the token is exactly the marker: the regex does not match
            -- (empty capture) and the token reading rejects it (empty value)
            have hrun_u : u.takeWhile (fun ch => !(isSpaceChar ch)) = [] := by
              rw [hdropu] at hrun
              exact hrun
            have ht_pfx : (c :: cs).takeWhile (fun ch => !(isSpaceChar ch)) = pfx := by
              rw [ht_eq, hrun_u, List.append_nil]
            have hft : (pfx.isPrefixOf ((c :: cs).takeWhile (fun ch => !(isSpaceChar ch))) &&
                decide (pfx.length <
                  ((c :: cs).takeWhile (fun ch => !(isSpaceChar ch))).length)) = false := by
              rw [ht_pfx]
              simp
            rw [scanAux_cons_skip (Or.inr hrun), scan_token_interior hns hc htok, ihrest,
              tokenVals_cons_none hc hft]
          · -- a real match: the capture is exactly the token remainder
            have hrun_u : ((c :: cs).drop pfx.length).takeWhile (fun ch => !(isSpaceChar ch)) =
                u.takeWhile (fun ch => !(isSpaceChar ch)) := by
              rw [hdropu]
            have hrun_pos : 0 < (u.takeWhile (fun ch => !(isSpaceChar ch))).length := by
              rw [hrun_u] at hrun
              exact List.length_pos.mpr hrun
            have hft : (pfx.isPrefixOf ((c :: cs).takeWhile (fun ch => !(isSpaceChar ch))) &&
                decide (pfx.length <
                  ((c :: cs).takeWhile (fun ch => !(isSpaceChar ch))).length)) = true := by
              rw [ht_eq]
              have h1 : pfx.isPrefixOf
                  (pfx ++ u.takeWhile (fun ch => !(isSpaceChar ch))) = true :=
                List.isPrefixOf_iff_prefix.mpr (List.prefix_append _ _)
              rw [h1, List.length_append]
              simpa using hrun_pos
            rw [scanAux_cons_match hpre hrun, scanAux_skip]
            have hskip : cs.drop (pfx.length +
                (((c :: cs).drop pfx.length).takeWhile
                  (fun ch => !(isSpaceChar ch))).length - 1) =
                (c :: cs).dropWhile (fun ch => !(isSpaceChar ch)) := by
              have hlen1 : 1 ≤ pfx.length := by
                cases pfx with
                | nil => exact absurd rfl hne
                | cons a l => simp
              have hstep : pfx.length +
                  (((c :: cs).drop pfx.length).takeWhile
                    (fun ch => !(isSpaceChar ch))).length - 1 + 1 =
                  pfx.length +
                  (((c :: cs).drop pfx.length).takeWhile
                    (fun ch => !(isSpaceChar ch))).length := by
                omega
              have hfull : (c :: cs).drop (pfx.length +
                  (((c :: cs).drop pfx.length).takeWhile
                    (fun ch => !(isSpaceChar ch))).length) =
                  (c :: cs).dropWhile (fun ch => !(isSpaceChar ch)) := by
                rw [← List.drop_drop, hdropu, drop_length_takeWhile, hrest_eq]
              calc cs.drop (pfx.length +
                    (((c :: cs).drop pfx.length).takeWhile
                      (fun ch => !(isSpaceChar ch))).length - 1)
                  = (c :: cs).drop (pfx.length +
                    (((c :: cs).drop pfx.length).takeWhile
                      (fun ch => !(isSpaceChar ch))).length - 1 + 1) :=
                    List.drop_succ_cons.symm
                _ = (c :: cs).drop (pfx.length +
                    (((c :: cs).drop pfx.length).takeWhile
                      (fun ch => !(isSpaceChar ch))).length) := by rw [hstep]
                _ = (c :: cs).dropWhile (fun ch => !(isSpaceChar ch)) := hfull
            rw [hskip, ihrest, tokenVals_cons_some hc hft, hrun_u, ht_eq, List.drop_left]
        · -- the marker does not occur at the head at all
          have hpre2 : pfx.isPrefixOf (c :: cs) = false := by
            rw [Bool.not_eq_true] at hpre
            exact hpre
          have hft : (pfx.isPrefixOf ((c :: cs).takeWhile (fun ch => !(isSpaceChar ch))) &&
              decide (pfx.length <
                ((c :: cs).takeWhile (fun ch => !(isSpaceChar ch))).length)) = false := by
            have : pfx.isPrefixOf ((c :: cs).takeWhile (fun ch => !(isSpaceChar ch))) = false := by
              by_contra habs
              rw [Bool.not_eq_false] at habs
              have h1 := List.isPrefixOf_iff_prefix.mp habs
              have h2 : (c :: cs).takeWhile (fun ch => !(isSpaceChar ch)) <+: c :: cs :=
                List.takeWhile_prefix _
              have h3 := List.isPrefixOf_iff_prefix.mpr (h1.trans h2)
              rw [hpre2] at h3
              exact absurd h3 (by decide)
            rw [this, Bool.false_and]
          rw [scanAux_cons_skip (Or.inl hpre2), scan_token_interior hns hc htok, ihrest,
            tokenVals_cons_none hc hft]

/-- C5 counterexample: the parser does not work "by matching
whitespace-delimited tokens of the form `ip4:<value>`": in the string
`"v=spf1 xip4:9.9.9.9 -all"` the only token containing the marker is
`xip4:9.9.9.9`, which is not of that form, so the token reading yields
no value — yet the code's regex matches the marker mid-token and
returns `"9.9.9.9"`. -/
theorem claim_C5_counterexample :
    parseSpfRecord "v=spf1 xip4:9.9.9.9 -all" = { ipv4 := ["9.9.9.9"], includes := [] } ∧
    tokenParse "v=spf1 xip4:9.9.9.9 -all" = { ipv4 := [], includes := [] } ∧
    parseSpfRecord "v=spf1 xip4:9.9.9.9 -all" ≠ tokenParse "v=spf1 xip4:9.9.9.9 -all" :=
  ⟨by decide, by decide, by decide⟩

/-- C5 (amended): the parser extracts the `ip4:`/`include:` values by
matching occurrences of the marker anywhere in the string — each value
the maximal non-empty run of non-whitespace characters after the marker,
scanning left to right and resuming after each match — not only at
token starts; on every string in which each marker occurrence is
token-initial this coincides with the whitespace-delimited-token reading
(`tokenParse`), there is no validation of the values and no failure
mode, and the claim's example parses to
`ipv4 = ["10.0.0.0/8"]`, `includes = ["foo.com","bar.com"]`. -/
theorem claim_C5 (s : String)
    (h1 : tokenInitialOnly ip4Pfx s.toList = true)
    (h2 : tokenInitialOnly includePfx s.toList = true) :
    parseSpfRecord s = tokenParse s ∧
    parseSpfRecord "v=spf1 ip4:10.0.0.0/8 include:foo.com include:bar.com -all" =
      { ipv4 := ["10.0.0.0/8"], includes := ["foo.com", "bar.com"] } := by
  constructor
  · unfold parseSpfRecord tokenParse
    rw [scan_eq_tokenVals (show ip4Pfx ≠ [] by decide)
        (show ∀ ch ∈ ip4Pfx, isSpaceChar ch = false by decide)
        s.toList.length s.toList (le_refl _) h1,
      scan_eq_tokenVals (show includePfx ≠ [] by decide)
        (show ∀ ch ∈ includePfx, isSpaceChar ch = false by decide)
        s.toList.length s.toList (le_refl _) h2]
  · decide

theorem claim_C5_witness :
    parseSpfRecord "v=spf1 ip4:10.0.0.0/8 include:foo.com include:bar.com -all" =
      tokenParse "v=spf1 ip4:10.0.0.0/8 include:foo.com include:bar.com -all" ∧
    tokenParse "v=spf1 ip4:10.0.0.0/8 include:foo.com include:bar.com -all" =
      { ipv4 := ["10.0.0.0/8"], includes := ["foo.com", "bar.com"] } :=
  ⟨(claim_C5 "v=spf1 ip4:10.0.0.0/8 include:foo.com include:bar.com -all"
      (by decide) (by decide)).1,
   by decide⟩
